import Mathlib

/-!
Shallow embedding of the core of `wave.py`: the `Order` entity, the mutable
inventory level (a Python dict from SKU to quantity), the two-pass commitment
engine `check_orders`, and the greedy slot-candidate search.

A Python dict is modelled as an insertion-ordered association list.  Python's
`d[k] = v` updates the value in place when the key exists (keeping its
position) and appends the key at the end otherwise; `k in d` is key lookup;
`d.get(k, v)` and `d[k]` read the value.  All quantities are `Int` (Python
ints; they go negative under replenishment).  In-place mutation of the dict is
made explicit: every operation returns the new dict.
-/

namespace Wave

/-- A Python dict with string keys and integer values, as an insertion-ordered
association list.  Keys are unique in every dict the program builds. -/
abbrev Dict := List (String × Int)

/-- `d.get(k, v)` / `d[k]`: the value at key `k`, or `v` when absent. -/
def getD : Dict → String → Int → Int
  | [], _, v => v
  | p :: rest, k, v => if p.1 = k then p.2 else getD rest k v

/-- `k in d`: key membership. -/
def hasKey : Dict → String → Bool
  | [], _ => false
  | p :: rest, k => decide (p.1 = k) || hasKey rest k

/-- `d[k] = v`: update in place when present (keeping position), else append. -/
def setKey : Dict → String → Int → Dict
  | [], k, v => [(k, v)]
  | p :: rest, k, v => if p.1 = k then (k, v) :: rest else p :: setKey rest k v

/-- `d.keys()`, in insertion order. -/
def keys (d : Dict) : List String := d.map Prod.fst

/-- `class Order`: a shipment id and its requested quantities per SKU
(`self.items`). -/
structure Order where
  ship_id : String
  items : Dict
deriving DecidableEq

/-- `Order.add_item`: `if sku not in self.items: self.items[sku] = 0;
self.items[sku] += qty` — accumulate quantity, inserting the key at the end on
first encounter. -/
def Order.add_item (o : Order) (sku : String) (qty : Int) : Order :=
  { o with items := setKey o.items sku (getD o.items sku 0 + qty) }

/-- One pair's feasibility test inside `Order.commit`: the pair is infeasible
when `sku not in boh or (boh[sku] < qty and not with_replen)`. -/
def pairFeasible (boh : Dict) (with_replen : Bool) (p : String × Int) : Bool :=
  hasKey boh p.1 && (!(decide (getD boh p.1 0 < p.2)) || with_replen)

/-- The `can_commit` flag of `Order.commit`: the source folds the per-pair
test over all items with a boolean flag (no short-circuit), which is `all`. -/
def Order.can_commit (o : Order) (boh : Dict) (with_replen : Bool) : Bool :=
  o.items.all (pairFeasible boh with_replen)

/-- The deduction loop of `Order.commit`: `for sku, qty in self.items.items():
boh[sku] -= qty`.  Only ever run when every key is present. -/
def deductAll (boh : Dict) (items : Dict) : Dict :=
  items.foldl (fun b p => setKey b p.1 (getD b p.1 0 - p.2)) boh

/-- `Order.commit(boh, with_replen)`: check all pairs, deduct only when all
are feasible, return the flag.  The mutated dict is returned explicitly. -/
def Order.commit (o : Order) (boh : Dict) (with_replen : Bool) : Bool × Dict :=
  if o.can_commit boh with_replen then (true, deductAll boh o.items)
  else (false, boh)

/-- Pass 1 of `check_orders`: commit without replenishment; successes go to
`ready_orders`, failures to `retry_orders`.  Returns
`(ready, retry, final boh)`. -/
def pass1 : List Order → Dict → List Order × List Order × Dict
  | [], boh => ([], [], boh)
  | o :: rest, boh =>
      let r := o.commit boh false
      let t := pass1 rest r.2
      if r.1 then (o :: t.1, t.2.1, t.2.2) else (t.1, o :: t.2.1, t.2.2)

/-- The histogram tally of a blocked order: `for sku, qty in
order.items.items(): if sku not in boh: ... sku_hist[sku] += qty`.  The
source's `count = sku_hist.get(sku, None); if not count: sku_hist[sku] = 0`
dance nets out to `sku_hist[sku] = sku_hist.get(sku, 0) + qty` (resetting a
missing or zero count to zero before adding changes nothing). -/
def tallyMissing (boh : Dict) (items : Dict) (hist : Dict) : Dict :=
  items.foldl
    (fun h p => if hasKey boh p.1 then h else setKey h p.1 (getD h p.1 0 + p.2))
    hist

/-- Pass 2 of `check_orders`: commit the retry list with replenishment;
successes go to `replen_orders`, failures to `slot_orders` (blocked) and tally
their entirely-absent SKUs into the histogram.  Returns
`(replen, blocked, final boh, hist)`. -/
def pass2 : List Order → Dict → Dict → List Order × List Order × Dict × Dict
  | [], boh, hist => ([], [], boh, hist)
  | o :: rest, boh, hist =>
      let r := o.commit boh true
      if r.1 then
        let t := pass2 rest r.2 hist
        (o :: t.1, t.2.1, t.2.2)
      else
        let t := pass2 rest r.2 (tallyMissing r.2 o.items hist)
        (t.1, o :: t.2.1, t.2.2)

/-- Insert a SKU in front of the first element whose histogram count is not
larger — one step of a stable descending sort. -/
def insertDesc (hist : Dict) (a : String) : List String → List String
  | [] => [a]
  | b :: l =>
      if getD hist b 0 ≤ getD hist a 0 then a :: b :: l
      else b :: insertDesc hist a l

/-- Stable sort in descending histogram order.  Earlier elements are inserted
last and land in front of every tie, so ties keep their original order. -/
def sortDesc (hist : Dict) : List String → List String
  | [] => []
  | a :: l => insertDesc hist a (sortDesc hist l)

/-- `sorted(sku_hist.keys(), key=sku_hist.__getitem__, reverse=True)`:
Python's `sorted` is stable, and `reverse=True` keeps equal-keyed elements in
their original (here: insertion) order while sorting counts descending; a
stable descending sort has exactly one possible output, computed here by
insertion sort. -/
def rankedSkus (hist : Dict) : List String :=
  sortDesc hist (keys hist)

/-- One trial inventory: `trial_boh = dict(boh)` then
`for s in slot_candidates: trial_boh[s] = 0`. -/
def mkTrial (base : Dict) (cands : List String) : Dict :=
  cands.foldl (fun t s => setKey t s 0) base

/-- The inner loop of one trial: commit every blocked order (with
replenishment) against the trial dict, collecting the successes.  Returns
`(addn_orders, trial after the attempts)`. -/
def commitAll : List Order → Dict → List Order × Dict
  | [], t => ([], t)
  | o :: rest, t =>
      let r := o.commit t true
      let tail := commitAll rest r.2
      if r.1 then (o :: tail.1, tail.2) else (tail.1, tail.2)

/-- The slot-candidate loop of `check_orders`: grow the candidate prefix one
ranked SKU at a time; each iteration builds its trial from `base` (the
Pass-2-final level) afresh and records
`(list(slot_candidates), addn_orders, trial_boh)`. -/
def runTrials (base : Dict) (blocked : List Order) :
    List String → List String → List (List String × List Order × Dict)
  | _, [] => []
  | acc, sku :: rest =>
      let cands := acc ++ [sku]
      let r := commitAll blocked (mkTrial base cands)
      (cands, r.1, r.2) :: runTrials base blocked cands rest

/-- `check_orders(orders, boh)`: the two passes, the ranking, and the
slot-candidate trials.  The source returns `(ready, replen, slot_results)`
and mutates `boh` in place; the final level state is returned here as the
fourth component to make that side effect explicit. -/
def check_orders (orders : List Order) (boh : Dict) :
    List Order × List Order × List (List String × List Order × Dict) × Dict :=
  let p1 := pass1 orders boh
  let p2 := pass2 p1.2.1 p1.2.2 []
  let ordered_skus := rankedSkus p2.2.2.2
  let slot_results := runTrials p2.2.2.1 p2.2.1 [] ordered_skus
  (p1.1, p2.1, slot_results, p2.2.2.1)

/-- Total quantity an items dict requests for one SKU (the quantity deducted
for that SKU by a successful commit). -/
def itemsQtyAt (items : Dict) (sku : String) : Int :=
  (items.map (fun p => if p.1 = sku then p.2 else 0)).sum

/-- Total quantity a list of orders requests for one SKU. -/
def sumQtyAt (os : List Order) (sku : String) : Int :=
  (os.map (fun o => itemsQtyAt o.items sku)).sum

/-! ### Dictionary lemmas -/

theorem getD_setKey_self (d : Dict) (k : String) (v w : Int) :
    getD (setKey d k v) k w = v := by
  induction d with
  | nil => simp [setKey, getD]
  | cons p rest ih =>
      by_cases h : p.1 = k
      · simp [setKey, h, getD]
      · simp [setKey, h, getD, ih]

theorem getD_setKey_ne (d : Dict) {k k' : String} (v w : Int) (h : k ≠ k') :
    getD (setKey d k v) k' w = getD d k' w := by
  induction d with
  | nil => simp [setKey, getD, h]
  | cons p rest ih =>
      by_cases hp : p.1 = k
      · simp [setKey, hp, getD, h, hp ▸ h]
      · simp [setKey, hp, getD, ih]

theorem hasKey_iff_mem_keys (d : Dict) (k : String) :
    hasKey d k = true ↔ k ∈ keys d := by
  induction d with
  | nil => simp [hasKey, keys]
  | cons p rest ih =>
      simp [hasKey, keys, ih]
      constructor
      · rintro (h | h)
        · exact Or.inl h.symm
        · exact Or.inr (by simpa [keys] using h)
      · rintro (h | h)
        · exact Or.inl h.symm
        · exact Or.inr (by simpa [keys] using h)

theorem hasKey_congr {d d' : Dict} (h : keys d = keys d') (k : String) :
    hasKey d k = hasKey d' k := by
  cases hk : hasKey d' k
  · cases hk' : hasKey d k
    · rfl
    · exact absurd ((hasKey_iff_mem_keys d' k).mpr
        (h ▸ (hasKey_iff_mem_keys d k).mp hk')) (by simp [hk])
  · exact (hasKey_iff_mem_keys d k).mpr (h ▸ (hasKey_iff_mem_keys d' k).mp hk)

theorem keys_setKey_of_hasKey (d : Dict) (k : String) (v : Int)
    (h : hasKey d k = true) : keys (setKey d k v) = keys d := by
  induction d with
  | nil => simp [hasKey] at h
  | cons p rest ih =>
      by_cases hp : p.1 = k
      · simp [setKey, hp, keys]
      · have hr : hasKey rest k = true := by
          simpa [hasKey, hp] using h
        simp [setKey, hp, keys, ih hr] at *
        simpa [keys] using ih hr

theorem hasKey_setKey (d : Dict) (k : String) (v : Int) (k' : String) :
    hasKey (setKey d k v) k' = (decide (k = k') || hasKey d k') := by
  induction d with
  | nil => simp [setKey, hasKey]
  | cons p rest ih =>
      by_cases hp : p.1 = k
      · by_cases he : k = k' <;> simp [setKey, hp, hasKey, he, hp ▸ he]
      · simp [setKey, hp, hasKey, ih, Bool.or_assoc, Bool.or_comm,
          Bool.or_left_comm]

theorem itemsQtyAt_cons (p : String × Int) (rest : Dict) (sku : String) :
    itemsQtyAt (p :: rest) sku = (if p.1 = sku then p.2 else 0) + itemsQtyAt rest sku := by
  simp [itemsQtyAt]

theorem getD_deductAll (items : Dict) (boh : Dict) (sku : String) :
    getD (deductAll boh items) sku 0 = getD boh sku 0 - itemsQtyAt items sku := by
  induction items generalizing boh with
  | nil => simp [deductAll, itemsQtyAt]
  | cons p rest ih =>
      have hstep : deductAll boh (p :: rest) =
          deductAll (setKey boh p.1 (getD boh p.1 0 - p.2)) rest := rfl
      rw [hstep, ih, itemsQtyAt_cons]
      by_cases h : p.1 = sku
      · rw [h, getD_setKey_self]
        simp [h]
        omega
      · rw [getD_setKey_ne _ _ _ h]
        simp [h]

theorem keys_deductAll (items : Dict) (boh : Dict)
    (h : ∀ p ∈ items, hasKey boh p.1 = true) :
    keys (deductAll boh items) = keys boh := by
  induction items generalizing boh with
  | nil => rfl
  | cons p rest ih =>
      have hstep : deductAll boh (p :: rest) =
          deductAll (setKey boh p.1 (getD boh p.1 0 - p.2)) rest := rfl
      have hp : hasKey boh p.1 = true := h p (by simp)
      have hkeys : keys (setKey boh p.1 (getD boh p.1 0 - p.2)) = keys boh :=
        keys_setKey_of_hasKey _ _ _ hp
      rw [hstep, ih _ ?_, hkeys]
      intro q hq
      rw [hasKey_congr hkeys]
      exact h q (by simp [hq])

/-! ### `Order.commit` lemmas -/

theorem pairFeasible_iff (boh : Dict) (r : Bool) (p : String × Int) :
    pairFeasible boh r p = true ↔
      hasKey boh p.1 = true ∧ (r = true ∨ p.2 ≤ getD boh p.1 0) := by
  simp [pairFeasible, not_lt]
  tauto

theorem can_commit_iff (o : Order) (boh : Dict) (r : Bool) :
    o.can_commit boh r = true ↔
      ∀ p ∈ o.items, hasKey boh p.1 = true ∧ (r = true ∨ p.2 ≤ getD boh p.1 0) := by
  simp only [Order.can_commit, List.all_eq_true]
  constructor
  · intro h p hp
    exact (pairFeasible_iff boh r p).mp (h p hp)
  · intro h p hp
    exact (pairFeasible_iff boh r p).mpr (h p hp)

theorem can_commit_true_eq (o : Order) (boh : Dict) :
    o.can_commit boh true = o.items.all (fun p => hasKey boh p.1) := by
  have h : pairFeasible boh true = fun p => hasKey boh p.1 := by
    funext p
    simp [pairFeasible]
  simp [Order.can_commit, h]

theorem commit_of_can {o : Order} {boh : Dict} {r : Bool}
    (h : o.can_commit boh r = true) :
    o.commit boh r = (true, deductAll boh o.items) := by
  simp [Order.commit, h]

theorem commit_of_not {o : Order} {boh : Dict} {r : Bool}
    (h : o.can_commit boh r = false) : o.commit boh r = (false, boh) := by
  simp [Order.commit, h]

theorem commit_fst_eq_can (o : Order) (boh : Dict) (r : Bool) :
    (o.commit boh r).1 = o.can_commit boh r := by
  cases h : o.can_commit boh r
  · rw [commit_of_not h]
  · rw [commit_of_can h]

theorem commit_snd_of_fail {o : Order} {boh : Dict} {r : Bool}
    (h : (o.commit boh r).1 = false) : (o.commit boh r).2 = boh := by
  cases hc : o.can_commit boh r
  · rw [commit_of_not hc]
  · rw [commit_of_can hc] at h
    simp at h

theorem keys_commit (o : Order) (boh : Dict) (r : Bool) :
    keys (o.commit boh r).2 = keys boh := by
  cases hc : o.can_commit boh r
  · rw [commit_of_not hc]
  · rw [commit_of_can hc]
    refine keys_deductAll _ _ ?_
    intro p hp
    exact (((can_commit_iff o boh r).mp hc) p hp).1

/-! ### Pass 1 and Pass 2 lemmas -/

theorem sumQtyAt_cons (o : Order) (os : List Order) (sku : String) :
    sumQtyAt (o :: os) sku = itemsQtyAt o.items sku + sumQtyAt os sku := by
  simp [sumQtyAt]

theorem sumQtyAt_append (os os' : List Order) (sku : String) :
    sumQtyAt (os ++ os') sku = sumQtyAt os sku + sumQtyAt os' sku := by
  simp [sumQtyAt]

theorem pass1_cons (o : Order) (rest : List Order) (boh : Dict) :
    pass1 (o :: rest) boh =
      if (o.commit boh false).1 then
        (o :: (pass1 rest (o.commit boh false).2).1,
         (pass1 rest (o.commit boh false).2).2.1,
         (pass1 rest (o.commit boh false).2).2.2)
      else
        ((pass1 rest (o.commit boh false).2).1,
         o :: (pass1 rest (o.commit boh false).2).2.1,
         (pass1 rest (o.commit boh false).2).2.2) := rfl

theorem pass1_cons_can {o : Order} {boh : Dict} (rest : List Order)
    (hc : o.can_commit boh false = true) :
    pass1 (o :: rest) boh =
      (o :: (pass1 rest (deductAll boh o.items)).1,
       (pass1 rest (deductAll boh o.items)).2.1,
       (pass1 rest (deductAll boh o.items)).2.2) := by
  rw [pass1_cons, commit_of_can hc]
  rfl

theorem pass1_cons_not {o : Order} {boh : Dict} (rest : List Order)
    (hc : o.can_commit boh false = false) :
    pass1 (o :: rest) boh =
      ((pass1 rest boh).1, o :: (pass1 rest boh).2.1, (pass1 rest boh).2.2) := by
  rw [pass1_cons, commit_of_not hc]
  simp

theorem pass1_keys (orders : List Order) (boh : Dict) :
    keys (pass1 orders boh).2.2 = keys boh := by
  induction orders generalizing boh with
  | nil => rfl
  | cons o rest ih =>
      by_cases hc : o.can_commit boh false = true
      · rw [pass1_cons_can rest hc]
        exact (ih _).trans (keys_deductAll _ _
          (fun p hp => (((can_commit_iff o boh false).mp hc) p hp).1))
      · have hc' : o.can_commit boh false = false := by simpa using hc
        rw [pass1_cons_not rest hc']
        exact ih boh

theorem pass1_conservation (orders : List Order) (boh : Dict) (sku : String) :
    getD (pass1 orders boh).2.2 sku 0 =
      getD boh sku 0 - sumQtyAt (pass1 orders boh).1 sku := by
  induction orders generalizing boh with
  | nil => simp [pass1, sumQtyAt]
  | cons o rest ih =>
      by_cases hc : o.can_commit boh false = true
      · rw [pass1_cons_can rest hc]
        simp only [sumQtyAt_cons]
        rw [ih, getD_deductAll]
        omega
      · have hc' : o.can_commit boh false = false := by simpa using hc
        rw [pass1_cons_not rest hc']
        exact ih boh

theorem pass2_cons (o : Order) (rest : List Order) (boh hist : Dict) :
    pass2 (o :: rest) boh hist =
      if (o.commit boh true).1 then
        (o :: (pass2 rest (o.commit boh true).2 hist).1,
         (pass2 rest (o.commit boh true).2 hist).2.1,
         (pass2 rest (o.commit boh true).2 hist).2.2)
      else
        ((pass2 rest (o.commit boh true).2
            (tallyMissing (o.commit boh true).2 o.items hist)).1,
         o :: (pass2 rest (o.commit boh true).2
            (tallyMissing (o.commit boh true).2 o.items hist)).2.1,
         (pass2 rest (o.commit boh true).2
            (tallyMissing (o.commit boh true).2 o.items hist)).2.2) := rfl

theorem pass2_cons_can {o : Order} {boh : Dict} (rest : List Order) (hist : Dict)
    (hc : o.can_commit boh true = true) :
    pass2 (o :: rest) boh hist =
      (o :: (pass2 rest (deductAll boh o.items) hist).1,
       (pass2 rest (deductAll boh o.items) hist).2.1,
       (pass2 rest (deductAll boh o.items) hist).2.2) := by
  rw [pass2_cons, commit_of_can hc]
  rfl

theorem pass2_cons_not {o : Order} {boh : Dict} (rest : List Order) (hist : Dict)
    (hc : o.can_commit boh true = false) :
    pass2 (o :: rest) boh hist =
      ((pass2 rest boh (tallyMissing boh o.items hist)).1,
       o :: (pass2 rest boh (tallyMissing boh o.items hist)).2.1,
       (pass2 rest boh (tallyMissing boh o.items hist)).2.2) := by
  rw [pass2_cons, commit_of_not hc]
  simp

theorem pass2_keys (orders : List Order) (boh hist : Dict) :
    keys (pass2 orders boh hist).2.2.1 = keys boh := by
  induction orders generalizing boh hist with
  | nil => rfl
  | cons o rest ih =>
      by_cases hc : o.can_commit boh true = true
      · have hk : keys (deductAll boh o.items) = keys boh :=
          keys_deductAll _ _ (fun p hp => (((can_commit_iff o boh true).mp hc) p hp).1)
        rw [pass2_cons_can rest hist hc]
        exact (ih _ _).trans hk
      · have hc' : o.can_commit boh true = false := by simpa using hc
        rw [pass2_cons_not rest hist hc']
        exact ih boh _

theorem pass2_conservation (orders : List Order) (boh hist : Dict) (sku : String) :
    getD (pass2 orders boh hist).2.2.1 sku 0 =
      getD boh sku 0 - sumQtyAt (pass2 orders boh hist).1 sku := by
  induction orders generalizing boh hist with
  | nil => simp [pass2, sumQtyAt]
  | cons o rest ih =>
      by_cases hc : o.can_commit boh true = true
      · rw [pass2_cons_can rest hist hc]
        simp only [sumQtyAt_cons]
        rw [ih, getD_deductAll]
        omega
      · have hc' : o.can_commit boh true = false := by simpa using hc
        rw [pass2_cons_not rest hist hc']
        exact ih boh _

theorem getD_tallyMissing (items : Dict) (boh hist : Dict) (sku : String) :
    getD (tallyMissing boh items hist) sku 0 =
      getD hist sku 0 + (if hasKey boh sku = true then 0 else itemsQtyAt items sku) := by
  induction items generalizing hist with
  | nil => simp [tallyMissing, itemsQtyAt]
  | cons p rest ih =>
      have hstep : tallyMissing boh (p :: rest) hist =
          tallyMissing boh rest
            (if hasKey boh p.1 then hist
             else setKey hist p.1 (getD hist p.1 0 + p.2)) := rfl
      rw [hstep, ih, itemsQtyAt_cons]
      by_cases hp : hasKey boh p.1 = true
      · by_cases hs : hasKey boh sku = true
        · simp [hp, hs]
        · have hne : p.1 ≠ sku := fun h => hs (h ▸ hp)
          simp [hp, hs, hne]
      · have hp' : hasKey boh p.1 = false := by simpa using hp
        by_cases hs : hasKey boh sku = true
        · have hne : p.1 ≠ sku := fun h => hp (h ▸ hs)
          rw [hp', if_neg (by simp), getD_setKey_ne _ _ _ hne]
          simp [hs]
        · by_cases he : p.1 = sku
          · subst he
            rw [hp', if_neg (by simp), getD_setKey_self]
            simp only [hs, if_false, Bool.false_eq_true]
            by_cases hz : hasKey boh p.1 = true
            · exact absurd hz (by simp [hp'])
            · simp [hs]
              omega
          · rw [hp', if_neg (by simp), getD_setKey_ne _ _ _ he]
            simp [hs, he]

theorem pass2_hist (orders : List Order) (boh hist : Dict) (sku : String) :
    getD (pass2 orders boh hist).2.2.2 sku 0 =
      getD hist sku 0 +
        (if hasKey boh sku = true then 0
         else sumQtyAt (pass2 orders boh hist).2.1 sku) := by
  induction orders generalizing boh hist with
  | nil => simp [pass2, sumQtyAt]
  | cons o rest ih =>
      by_cases hc : o.can_commit boh true = true
      · have hk : keys (deductAll boh o.items) = keys boh :=
          keys_deductAll _ _ (fun p hp => (((can_commit_iff o boh true).mp hc) p hp).1)
        rw [pass2_cons_can rest hist hc]
        rw [show (o :: (pass2 rest (deductAll boh o.items) hist).1,
              (pass2 rest (deductAll boh o.items) hist).2.1,
              (pass2 rest (deductAll boh o.items) hist).2.2).2.2.2 =
            (pass2 rest (deductAll boh o.items) hist).2.2.2 from rfl]
        rw [ih, hasKey_congr hk]
      · have hc' : o.can_commit boh true = false := by simpa using hc
        rw [pass2_cons_not rest hist hc']
        rw [show ((pass2 rest boh (tallyMissing boh o.items hist)).1,
              o :: (pass2 rest boh (tallyMissing boh o.items hist)).2.1,
              (pass2 rest boh (tallyMissing boh o.items hist)).2.2).2.2.2 =
            (pass2 rest boh (tallyMissing boh o.items hist)).2.2.2 from rfl]
        rw [ih, getD_tallyMissing]
        by_cases hs : hasKey boh sku = true
        · simp [hs]
        · simp [hs, sumQtyAt_cons]
          omega

/-! ### Slot-candidate trial lemmas -/

theorem runTrials_length (base : Dict) (blocked : List Order) (skus : List String) :
    ∀ acc, (runTrials base blocked acc skus).length = skus.length := by
  induction skus with
  | nil => intro acc; rfl
  | cons sku rest ih =>
      intro acc
      simp only [runTrials, List.length_cons, ih]

theorem runTrials_get (base : Dict) (blocked : List Order) (skus : List String) :
    ∀ (acc : List String) (k : Nat) (h : k < (runTrials base blocked acc skus).length),
      (runTrials base blocked acc skus).get ⟨k, h⟩ =
        (acc ++ skus.take (k + 1),
         (commitAll blocked (mkTrial base (acc ++ skus.take (k + 1)))).1,
         (commitAll blocked (mkTrial base (acc ++ skus.take (k + 1)))).2) := by
  induction skus with
  | nil =>
      intro acc k h
      simp [runTrials] at h
  | cons sku rest ih =>
      intro acc k h
      cases k with
      | zero => simp [runTrials, List.take_succ_cons]
      | succ k =>
          have h' : k < (runTrials base blocked (acc ++ [sku]) rest).length := by
            have hh := h
            rw [runTrials_length] at hh ⊢
            simpa using Nat.lt_of_succ_lt_succ (by simpa using hh)
          have hback : (runTrials base blocked acc (sku :: rest)).get ⟨k + 1, h⟩ =
              (runTrials base blocked (acc ++ [sku]) rest).get ⟨k, h'⟩ := rfl
          rw [hback, ih (acc ++ [sku]) k h']
          simp [List.take_succ_cons]

theorem commitAll_cons (o : Order) (rest : List Order) (t : Dict) :
    commitAll (o :: rest) t =
      if (o.commit t true).1 then
        (o :: (commitAll rest (o.commit t true).2).1,
         (commitAll rest (o.commit t true).2).2)
      else
        ((commitAll rest (o.commit t true).2).1,
         (commitAll rest (o.commit t true).2).2) := rfl

theorem commitAll_fst (blocked : List Order) :
    ∀ t : Dict, (commitAll blocked t).1 =
      blocked.filter (fun o => o.items.all (fun p => hasKey t p.1)) := by
  induction blocked with
  | nil => intro t; rfl
  | cons o rest ih =>
      intro t
      by_cases hc : o.can_commit t true = true
      · have hall : o.items.all (fun p => hasKey t p.1) = true := by
          rw [← can_commit_true_eq]; exact hc
        have hk : keys (deductAll t o.items) = keys t :=
          keys_deductAll _ _ (fun p hp => (((can_commit_iff o t true).mp hc) p hp).1)
        rw [commitAll_cons, commit_of_can hc]
        simp only [List.filter_cons, hall, if_true]
        rw [ih]
        simp only [hasKey_congr hk]
      · have hc' : o.can_commit t true = false := by simpa using hc
        have hall : o.items.all (fun p => hasKey t p.1) = false := by
          rw [← can_commit_true_eq]; exact hc'
        rw [commitAll_cons, commit_of_not hc']
        simp only [List.filter_cons, hall]
        simpa using ih t

theorem hasKey_mkTrial (cands : List String) :
    ∀ (base : Dict) (sku : String),
      hasKey (mkTrial base cands) sku = (hasKey base sku || decide (sku ∈ cands)) := by
  induction cands with
  | nil => intro base sku; simp [mkTrial]
  | cons c rest ih =>
      intro base sku
      have hstep : mkTrial base (c :: rest) = mkTrial (setKey base c 0) rest := rfl
      rw [hstep, ih, hasKey_setKey]
      by_cases h : c = sku <;> by_cases hb : hasKey base sku = true <;>
        simp [h, hb, List.mem_cons, eq_comm]

theorem mem_take_succ {α : Type} {a : α} {l : List α} {n : Nat}
    (h : a ∈ l.take n) : a ∈ l.take (n + 1) := by
  have h1 : (l.take (n + 1)).take n = l.take n := by
    rw [List.take_take, Nat.min_eq_left (Nat.le_succ n)]
  exact List.take_subset n (l.take (n + 1)) (h1.symm ▸ h)

/-! ### Ranking lemmas: the stable descending sort -/

theorem perm_insertDesc (hist : Dict) (a : String) :
    ∀ l : List String, (insertDesc hist a l).Perm (a :: l) := by
  intro l
  induction l with
  | nil => simp [insertDesc]
  | cons b t ih =>
      by_cases h : getD hist b 0 ≤ getD hist a 0
      · simp [insertDesc, h]
      · simp only [insertDesc, if_neg h]
        exact (ih.cons b).trans (List.Perm.swap a b t)

theorem perm_sortDesc (hist : Dict) :
    ∀ l : List String, (sortDesc hist l).Perm l := by
  intro l
  induction l with
  | nil => simp [sortDesc]
  | cons a t ih =>
      exact (perm_insertDesc hist a (sortDesc hist t)).trans (ih.cons a)

theorem sublist_insertDesc (hist : Dict) (a : String) :
    ∀ l : List String, l.Sublist (insertDesc hist a l) := by
  intro l
  induction l with
  | nil => simp [insertDesc]
  | cons b t ih =>
      by_cases h : getD hist b 0 ≤ getD hist a 0
      · simp only [insertDesc, if_pos h]
        exact (List.Sublist.refl (b :: t)).cons a
      · simp only [insertDesc, if_neg h]
        exact ih.cons₂ b

theorem pairwise_insertDesc (hist : Dict) (a : String) :
    ∀ l : List String,
      List.Pairwise (fun x y => getD hist y 0 ≤ getD hist x 0) l →
      List.Pairwise (fun x y => getD hist y 0 ≤ getD hist x 0) (insertDesc hist a l) := by
  intro l
  induction l with
  | nil => intro _; simp [insertDesc]
  | cons b t ih =>
      intro hp
      rw [List.pairwise_cons] at hp
      by_cases h : getD hist b 0 ≤ getD hist a 0
      · simp only [insertDesc, if_pos h]
        rw [List.pairwise_cons]
        refine ⟨?_, List.pairwise_cons.mpr hp⟩
        intro x hx
        rcases List.mem_cons.mp hx with hxb | hxt
        · subst hxb; exact h
        · exact le_trans (hp.1 x hxt) h
      · simp only [insertDesc, if_neg h]
        rw [List.pairwise_cons]
        refine ⟨?_, ih hp.2⟩
        intro x hx
        have hmem := (perm_insertDesc hist a t).mem_iff.mp hx
        rcases List.mem_cons.mp hmem with hxa | hxt
        · subst hxa; omega
        · exact hp.1 x hxt

theorem sorted_sortDesc (hist : Dict) :
    ∀ l : List String,
      List.Pairwise (fun x y => getD hist y 0 ≤ getD hist x 0) (sortDesc hist l) := by
  intro l
  induction l with
  | nil => simp [sortDesc]
  | cons a t ih => exact pairwise_insertDesc hist a _ ih

theorem insertDesc_pair_sublist (hist : Dict) (a b : String) :
    ∀ l : List String, b ∈ l → getD hist b 0 ≤ getD hist a 0 →
      [a, b].Sublist (insertDesc hist a l) := by
  intro l
  induction l with
  | nil => intro h; simp at h
  | cons c t ih =>
      intro hmem hv
      by_cases h : getD hist c 0 ≤ getD hist a 0
      · simp only [insertDesc, if_pos h]
        exact (List.singleton_sublist.mpr hmem).cons₂ a
      · simp only [insertDesc, if_neg h]
        rcases List.mem_cons.mp hmem with hbc | hbt
        · subst hbc
          exact absurd hv h
        · exact (ih hbt hv).cons c

theorem sortDesc_stable (hist : Dict) (a b : String) :
    ∀ l : List String, getD hist a 0 = getD hist b 0 →
      [a, b].Sublist l → [a, b].Sublist (sortDesc hist l) := by
  intro l
  induction l with
  | nil =>
      intro _ hs
      simp at hs
  | cons c t ih =>
      intro hv hs
      cases hs with
      | cons _ hs' =>
          exact (ih hv hs').trans (sublist_insertDesc hist c (sortDesc hist t))
      | cons₂ _ hs' =>
          have hbmem : b ∈ sortDesc hist t :=
            (perm_sortDesc hist t).mem_iff.mpr (List.singleton_sublist.mp hs')
          exact insertDesc_pair_sublist hist a b (sortDesc hist t) hbmem
            (le_of_eq hv.symm)

/-! ### Claim theorems -/

/-- Claim C1: `Order.commit(inventory, allowReplenishment)` returns true iff
every (SKU, quantity) pair of the order's items is feasible — the SKU is a key
of the inventory and its quantity is at least the requested quantity or
`allowReplenishment` is true.  On success every pair's quantity is deducted
(possibly driving a quantity negative when replenishment is allowed); on
failure the inventory mapping is completely unchanged — no partial
deduction. -/
theorem commit_atomic (o : Order) (boh : Dict) (r : Bool) :
    ((o.commit boh r).1 = true ↔
      ∀ p ∈ o.items, hasKey boh p.1 = true ∧ (r = true ∨ p.2 ≤ getD boh p.1 0)) ∧
    ((o.commit boh r).1 = true →
      ∀ sku : String, getD (o.commit boh r).2 sku 0 =
        getD boh sku 0 - itemsQtyAt o.items sku) ∧
    ((o.commit boh r).1 = false → (o.commit boh r).2 = boh) := by
  refine ⟨?_, ?_, fun h => commit_snd_of_fail h⟩
  · rw [commit_fst_eq_can]
    exact can_commit_iff o boh r
  · intro h sku
    have hc : o.can_commit boh r = true := by rw [← commit_fst_eq_can]; exact h
    rw [commit_of_can hc]
    exact getD_deductAll o.items boh sku

/-- Witness for C1: a concrete successful commit deducts the requested
quantity. -/
theorem commit_atomic_witness :
    getD ((Order.mk "W" [("A", 3)]).commit [("A", 5)] true).2 "A" 0 = 2 := by
  have h := (commit_atomic (Order.mk "W" [("A", 3)]) [("A", 5)] true).2.1
    (by decide) "A"
  rw [h]
  decide

/-- Claim C2: conservation — the quantity the two passes of `check_orders`
remove from the level (initial minus final, per SKU) equals the summed item
quantities of exactly the orders classified ready or replenished; blocked
orders contribute no deduction. -/
theorem conservation (orders : List Order) (boh : Dict) (sku : String) :
    getD boh sku 0 - getD (check_orders orders boh).2.2.2 sku 0 =
      sumQtyAt ((check_orders orders boh).1 ++ (check_orders orders boh).2.1) sku := by
  show getD boh sku 0 -
      getD (pass2 (pass1 orders boh).2.1 (pass1 orders boh).2.2 []).2.2.1 sku 0 =
    sumQtyAt ((pass1 orders boh).1 ++
      (pass2 (pass1 orders boh).2.1 (pass1 orders boh).2.2 []).1) sku
  rw [sumQtyAt_append, pass2_conservation, pass1_conservation]
  omega

/-- Claim C4: the missing-SKU histogram — for an order failing Pass 2 each
(SKU, quantity) pair is tallied iff the SKU is entirely absent from the
level's mapping (key membership never changes during the passes, so absence
at tally time equals absence from the loaded level); an order blocked only by
insufficient-but-present stock joins the blocked list but contributes
nothing.  The final histogram value at a SKU is therefore zero when the SKU
is a key of the level, and the summed quantity over all blocked orders
otherwise. -/
theorem hist_counts_absent_only (orders : List Order) (boh : Dict) (sku : String) :
    getD (pass2 (pass1 orders boh).2.1 (pass1 orders boh).2.2 []).2.2.2 sku 0 =
      if hasKey boh sku = true then 0
      else sumQtyAt (pass2 (pass1 orders boh).2.1 (pass1 orders boh).2.2 []).2.1 sku := by
  rw [pass2_hist, hasKey_congr (pass1_keys orders boh)]
  simp [getD]

/-- Claim C6: end-to-end scenario — inventory `{A:10}` (B absent), orders
S1={A:4}, S2={A:8}, S3={B:1} in shipId order: S1 is ready leaving A at 6; S2
fails Pass 1 and succeeds in Pass 2 leaving A at -2; S3 fails both passes, is
blocked, and contributes 1 to B's histogram entry; the slot-candidate record
for prefix [B] has S3 in its unlocked set. -/
theorem scenario_end_to_end :
    pass1 [Order.mk "S1" [("A", 4)], Order.mk "S2" [("A", 8)], Order.mk "S3" [("B", 1)]]
        [("A", 10)] =
      ([Order.mk "S1" [("A", 4)]],
       [Order.mk "S2" [("A", 8)], Order.mk "S3" [("B", 1)]], [("A", 6)]) ∧
    pass2 [Order.mk "S2" [("A", 8)], Order.mk "S3" [("B", 1)]] [("A", 6)] [] =
      ([Order.mk "S2" [("A", 8)]], [Order.mk "S3" [("B", 1)]], [("A", -2)], [("B", 1)]) ∧
    check_orders [Order.mk "S1" [("A", 4)], Order.mk "S2" [("A", 8)],
        Order.mk "S3" [("B", 1)]] [("A", 10)] =
      ([Order.mk "S1" [("A", 4)]], [Order.mk "S2" [("A", 8)]],
       [(["B"], [Order.mk "S3" [("B", 1)]], [("A", -2), ("B", -1)])], [("A", -2)]) :=
  ⟨rfl, rfl, rfl⟩

/-- Claim C7: adding an item for a SKU the order already contains accumulates
the quantities; recording the same SKU twice with quantities 3 and 4 yields a
single order with that SKU mapped to 7. -/
theorem add_item_accumulates (o : Order) (shipId sku : String) (q1 q2 : Int) :
    getD ((o.add_item sku q1).add_item sku q2).items sku 0 =
      getD o.items sku 0 + q1 + q2 ∧
    ((Order.mk shipId []).add_item sku 3).add_item sku 4 =
      Order.mk shipId [(sku, 7)] := by
  constructor
  · simp [Order.add_item, getD_setKey_self]
  · simp [Order.add_item, setKey, getD]

/-- Claim C9: an order whose items mapping is empty always commits
successfully, leaves the inventory unchanged under both replenishment flags,
and is always classified ready in Pass 1. -/
theorem empty_order_ready (o : Order) (h : o.items = []) (boh : Dict) (r : Bool) :
    o.commit boh r = (true, boh) ∧
    ∀ (orders : List Order) (b : Dict), o ∈ orders → o ∈ (pass1 orders b).1 := by
  constructor
  · have hcan : o.can_commit boh r = true := by simp [Order.can_commit, h]
    rw [commit_of_can hcan]
    simp [deductAll, h]
  · intro orders
    induction orders with
    | nil =>
        intro b hmem
        simp at hmem
    | cons o2 rest ih =>
        intro b hmem
        rcases List.mem_cons.mp hmem with hoeq | homem
        · subst hoeq
          have hc : o.can_commit b false = true := by simp [Order.can_commit, h]
          rw [pass1_cons_can rest hc]
          exact List.mem_cons_self o _
        · by_cases hc : o2.can_commit b false = true
          · rw [pass1_cons_can rest hc]
            exact List.mem_cons_of_mem o2 (ih _ homem)
          · have hc' : o2.can_commit b false = false := by simpa using hc
            rw [pass1_cons_not rest hc']
            exact ih _ homem

/-- Witness for C9: a concrete empty order is classified ready. -/
theorem empty_order_ready_witness :
    Order.mk "E" [] ∈ (pass1 [Order.mk "E" []] [("A", 1)]).1 :=
  (empty_order_ready (Order.mk "E" []) rfl [("A", 1)] true).2
    [Order.mk "E" []] [("A", 1)] (by decide)

/-- Claim C10: neither `commit` nor the two passes of `check_orders` add or
remove a SKU key of the level they mutate — the level's key list after Pass 1
and Pass 2 equals its key list as loaded, with only the mapped quantities
changed (keys are added only to the independent per-prefix trial copies,
never to the level itself). -/
theorem level_keys_invariant (o : Order) (orders : List Order) (boh : Dict) (r : Bool) :
    keys (o.commit boh r).2 = keys boh ∧
    keys (check_orders orders boh).2.2.2 = keys boh := by
  refine ⟨keys_commit o boh r, ?_⟩
  show keys (pass2 (pass1 orders boh).2.1 (pass1 orders boh).2.2 []).2.2.1 = keys boh
  rw [pass2_keys]
  exact pass1_keys orders boh

/-- Claim C3: the record at index k of the slot results is computed from a
fresh copy of the Pass-2-final level state — never from a previous trial's
mutated copy: its candidate list is the first k+1 ranked SKUs, its trial
inventory is the fresh copy with those SKUs forced to zero, its unlocked set
is exactly the orders of the full original blocked set whose replenishment
commit against that copy succeeds, and it records the trial inventory after
the attempts. -/
theorem trials_from_final_state (orders : List Order) (boh : Dict) (k : Nat)
    (hk : k < ((check_orders orders boh).2.2.1).length) :
    ((check_orders orders boh).2.2.1).get ⟨k, hk⟩ =
      ((rankedSkus (pass2 (pass1 orders boh).2.1 (pass1 orders boh).2.2 []).2.2.2).take (k + 1),
       (commitAll (pass2 (pass1 orders boh).2.1 (pass1 orders boh).2.2 []).2.1
          (mkTrial (pass2 (pass1 orders boh).2.1 (pass1 orders boh).2.2 []).2.2.1
            ((rankedSkus (pass2 (pass1 orders boh).2.1
                (pass1 orders boh).2.2 []).2.2.2).take (k + 1)))).1,
       (commitAll (pass2 (pass1 orders boh).2.1 (pass1 orders boh).2.2 []).2.1
          (mkTrial (pass2 (pass1 orders boh).2.1 (pass1 orders boh).2.2 []).2.2.1
            ((rankedSkus (pass2 (pass1 orders boh).2.1
                (pass1 orders boh).2.2 []).2.2.2).take (k + 1)))).2) := by
  have h := runTrials_get
    (pass2 (pass1 orders boh).2.1 (pass1 orders boh).2.2 []).2.2.1
    (pass2 (pass1 orders boh).2.1 (pass1 orders boh).2.2 []).2.1
    (rankedSkus (pass2 (pass1 orders boh).2.1 (pass1 orders boh).2.2 []).2.2.2)
    [] k hk
  simpa using h

/-- Witness for C3: one concrete trial record. -/
theorem trials_from_final_state_witness :
    ((check_orders [Order.mk "T1" [("Y", 5)]] []).2.2.1).get ⟨0, by decide⟩ =
      (["Y"], [Order.mk "T1" [("Y", 5)]], [("Y", -5)]) :=
  (trials_from_final_state [Order.mk "T1" [("Y", 5)]] [] 0 (by decide)).trans rfl

/-- Claim C5: the slot-candidate ranking sorts the histogram's SKUs by
accumulated quantity descending, and any two SKUs with equal totals appear in
the ranking in the order they were first recorded into the histogram
(insertion order of the key list), never in an order determined by SKU value:
the ranking is a permutation of the histogram's key list, pairwise
non-increasing in count, and preserves the key-list order of any two
equal-count SKUs. -/
theorem ranking_desc_stable (hist : Dict) :
    (rankedSkus hist).Perm (keys hist) ∧
    List.Pairwise (fun x y => getD hist y 0 ≤ getD hist x 0) (rankedSkus hist) ∧
    ∀ a b : String, getD hist a 0 = getD hist b 0 →
      [a, b].Sublist (keys hist) → [a, b].Sublist (rankedSkus hist) := by
  refine ⟨perm_sortDesc hist (keys hist), sorted_sortDesc hist (keys hist), ?_⟩
  intro a b hv hs
  exact sortDesc_stable hist a b (keys hist) hv hs

/-- Witness for C5: two equal-count SKUs keep their insertion order in the
ranking. -/
theorem ranking_desc_stable_witness :
    List.Sublist ["X", "Y"] (rankedSkus [("X", 2), ("Y", 2)]) :=
  (ranking_desc_stable [("X", 2), ("Y", 2)]).2.2 "X" "Y" (by decide)
    (List.Sublist.refl _)

/-- Claim C8: within one level's slot-candidate sequence the unlocked set is
monotone non-decreasing in the prefix length: every order in the unlocked set
of the prefix-k record is in the unlocked set of the prefix-(k+1) record — a
replenishment commit fails only on an absent key, and each successive trial
copy's key set contains the previous one's. -/
theorem unlocked_monotone (orders : List Order) (boh : Dict) (k : Nat)
    (hk : k + 1 < ((check_orders orders boh).2.2.1).length) (o : Order)
    (ho : o ∈ (((check_orders orders boh).2.2.1).get ⟨k, Nat.lt_of_succ_lt hk⟩).2.1) :
    o ∈ (((check_orders orders boh).2.2.1).get ⟨k + 1, hk⟩).2.1 := by
  have h1 := runTrials_get
    (pass2 (pass1 orders boh).2.1 (pass1 orders boh).2.2 []).2.2.1
    (pass2 (pass1 orders boh).2.1 (pass1 orders boh).2.2 []).2.1
    (rankedSkus (pass2 (pass1 orders boh).2.1 (pass1 orders boh).2.2 []).2.2.2)
    [] k (Nat.lt_of_succ_lt hk)
  have h2 := runTrials_get
    (pass2 (pass1 orders boh).2.1 (pass1 orders boh).2.2 []).2.2.1
    (pass2 (pass1 orders boh).2.1 (pass1 orders boh).2.2 []).2.1
    (rankedSkus (pass2 (pass1 orders boh).2.1 (pass1 orders boh).2.2 []).2.2.2)
    [] (k + 1) hk
  have ho2 : o ∈ ((runTrials
      (pass2 (pass1 orders boh).2.1 (pass1 orders boh).2.2 []).2.2.1
      (pass2 (pass1 orders boh).2.1 (pass1 orders boh).2.2 []).2.1 []
      (rankedSkus (pass2 (pass1 orders boh).2.1
        (pass1 orders boh).2.2 []).2.2.2)).get ⟨k, Nat.lt_of_succ_lt hk⟩).2.1 := ho
  rw [h1] at ho2
  show o ∈ ((runTrials
      (pass2 (pass1 orders boh).2.1 (pass1 orders boh).2.2 []).2.2.1
      (pass2 (pass1 orders boh).2.1 (pass1 orders boh).2.2 []).2.1 []
      (rankedSkus (pass2 (pass1 orders boh).2.1
        (pass1 orders boh).2.2 []).2.2.2)).get ⟨k + 1, hk⟩).2.1
  rw [h2]
  simp only [List.nil_append] at ho2 ⊢
  rw [commitAll_fst, List.mem_filter] at ho2
  rw [commitAll_fst, List.mem_filter]
  refine ⟨ho2.1, ?_⟩
  have hpred := ho2.2
  rw [List.all_eq_true] at hpred ⊢
  intro p hp
  have h3 := hpred p hp
  rw [hasKey_mkTrial] at h3 ⊢
  simp only [Bool.or_eq_true, decide_eq_true_eq] at h3 ⊢
  rcases h3 with hb | hmem
  · exact Or.inl hb
  · exact Or.inr (mem_take_succ hmem)

/-- Witness for C8: an order unlocked by the first prefix stays unlocked in
the second. -/
theorem unlocked_monotone_witness :
    Order.mk "U1" [("C", 5)] ∈
      (((check_orders [Order.mk "U1" [("C", 5)], Order.mk "U2" [("D", 3)]]
          []).2.2.1).get ⟨1, by decide⟩).2.1 :=
  unlocked_monotone [Order.mk "U1" [("C", 5)], Order.mk "U2" [("D", 3)]] [] 0
    (by decide) (Order.mk "U1" [("C", 5)]) (by decide)

end Wave
